import Mathlib

/-!
Verification of the Voronoi bus-region partitioner of
`workflow/scripts/build_bus_regions.py` (function `voronoi_partition_pts`
and the offshore-area filter of the `__main__` block).

Shallow embedding conventions:
* Input point coordinates are exact rationals (`ℚ × ℚ`); the source works on
  float ndarrays, the claims are about the geometry up to floating-point
  tolerance, so the exact-arithmetic idealisation is used.
* Polygons/geometries are modelled semantically as point sets over `ℝ × ℝ`
  (`Set (ℝ × ℝ)`); a Voronoi cell produced by `scipy.spatial.Voronoi`
  (`Polygon(vor.vertices[vor.regions[vor.point_region[i]]])`) is modelled by
  its mathematical meaning, the set of locations no farther from its site than
  from any other site of the diagram.  In this exact semantics the cell is a
  genuine convex set, so the `poly.buffer(0)` validity repair of the source is
  the identity and has no separate model; `poly.intersection(outline)` is set
  intersection.
* Fallible behaviour is an `Except`: `np.amin` raises `ValueError` on a
  zero-size array (empty `points`), and `scipy.spatial.Voronoi` (qhull) raises
  `QhullError` when the input sites are less than 2-dimensional, i.e. all
  collinear.
-/

namespace BuildBusRegions

/-- A 2-D input point (a bus location), exact-rational idealisation of the
float coordinate pairs handed to `voronoi_partition_pts`. -/
abbrev Q2 : Type := ℚ × ℚ

/-- A location in the plane, over which region geometries live. -/
abbrev R2 : Type := ℝ × ℝ

/-- Cast an input point into the real plane. -/
def toR2 (p : Q2) : R2 := ((p.1 : ℝ), (p.2 : ℝ))

/-- Squared Euclidean distance in the plane. -/
def sqdist (a b : R2) : ℝ := (a.1 - b.1) ^ 2 + (a.2 - b.2) ^ 2

/-- Embeds `np.amin(points, axis=0)`, first coordinate.  The source lets `np.amin`
raise on an empty array; the `[]` case below is never reached because
`voronoi_partition_pts` errors out on empty input first. -/
def aminX : List Q2 → ℚ
  | [] => 0
  | p :: t => t.foldl (fun m q => min m q.1) p.1

/-- Embeds `np.amin(points, axis=0)`, second coordinate. -/
def aminY : List Q2 → ℚ
  | [] => 0
  | p :: t => t.foldl (fun m q => min m q.2) p.2

/-- Embeds `np.amax(points, axis=0)`, first coordinate. -/
def amaxX : List Q2 → ℚ
  | [] => 0
  | p :: t => t.foldl (fun m q => max m q.1) p.1

/-- Embeds `np.amax(points, axis=0)`, second coordinate. -/
def amaxY : List Q2 → ℚ
  | [] => 0
  | p :: t => t.foldl (fun m q => max m q.2) p.2

/-- The four auxiliary corner points appended by `voronoi_partition_pts`
before calling `Voronoi`:
`[[xmin-3.*xspan, ymin-3.*yspan], [xmin-3.*xspan, ymax+3.*yspan],
  [xmax+3.*xspan, ymin-3.*yspan], [xmax+3.*xspan, ymax+3.*yspan]]`. -/
def framePoints (ps : List Q2) : List Q2 :=
  let xmin := aminX ps
  let ymin := aminY ps
  let xmax := amaxX ps
  let ymax := amaxY ps
  let xspan := xmax - xmin
  let yspan := ymax - ymin
  [(xmin - 3 * xspan, ymin - 3 * yspan),
   (xmin - 3 * xspan, ymax + 3 * yspan),
   (xmax + 3 * xspan, ymin - 3 * yspan),
   (xmax + 3 * xspan, ymax + 3 * yspan)]

/-- Embeds `np.vstack((points, frame))`: the combined site list handed to
`scipy.spatial.Voronoi`. -/
def combinedPts (ps : List Q2) : List Q2 := ps ++ framePoints ps

/-- Twice the signed area of the triangle `a b c`; zero iff the three points
are collinear. -/
def cross3 (a b c : Q2) : ℚ :=
  (b.1 - a.1) * (c.2 - a.2) - (b.2 - a.2) * (c.1 - a.1)

/-- Helper for `collinearPts`: all points of the list lie on one line through
`a` (points equal to `a` are skipped until a second distinct point fixes the
line). -/
def collinearWith (a : Q2) : List Q2 → Bool
  | [] => true
  | b :: t => if b = a then collinearWith a t else t.all fun c => cross3 a b c == 0

/-- Whether a site list is less than 2-dimensional (all sites on one line,
including the all-coincident case).  This is exactly the situation in which
qhull, and hence `scipy.spatial.Voronoi`, fails with a `QhullError`
(``qhull input error: input is less than 2-dimensional``). -/
def collinearPts : List Q2 → Bool
  | [] => true
  | a :: t => collinearWith a t

/-- The (mathematical) Voronoi cell of site `p` within the site list `sites`:
all locations no farther from `p` than from any listed site.  This is the
exact-geometry meaning of the polygon
`Polygon(vor.vertices[vor.regions[vor.point_region[i]]])` that the source
builds for point `i` (already `buffer(0)`-valid in exact arithmetic). -/
def vorCell (sites : List Q2) (p : Q2) : Set R2 :=
  {x : R2 | ∀ q ∈ sites, sqdist x (toR2 p) ≤ sqdist x (toR2 q)}

/-- The ways `voronoi_partition_pts` can raise instead of returning. -/
inductive VorError : Type where
  /-- The `ValueError` from `np.amin` on a zero-size array (empty `points`). -/
  | emptyInput : VorError
  /-- The `QhullError` from `scipy.spatial.Voronoi` on a less than 2-dimensional
  site set. -/
  | qhullError : VorError
deriving DecidableEq

/-- Shallow embedding of `voronoi_partition_pts(points, outline)` of
`workflow/scripts/build_bus_regions.py`:

* `if len(points) == 1: polygons = [outline]` — single-point short-circuit,
  the outline is returned unchanged and no Voronoi computation happens;
* otherwise `np.amin`/`np.amax` run first, raising `ValueError` on empty
  input;
* the four frame corners are appended and `Voronoi` is invoked, raising
  `QhullError` when the combined sites are less than 2-dimensional;
* otherwise, for each input point in order, its Voronoi cell (repaired by
  `buffer(0)` when invalid, a no-op in exact arithmetic) is intersected with
  `outline` and appended to the result. -/
def voronoi_partition_pts (points : List Q2) (outline : Set R2) :
    Except VorError (List (Set R2)) :=
  if points.length = 1 then
    .ok [outline]
  else if points.isEmpty then
    .error .emptyInput
  else
    let comb := combinedPts points
    if collinearPts comb then
      .error .qhullError
    else
      .ok (points.map fun p => vorCell comb p ∩ outline)

/-- A row of the per-area offshore region table assembled in the `__main__`
block (`name`, `x`, `y`, computed geometry area). -/
structure RegionRow : Type where
  name : String
  x : ℚ
  y : ℚ
  area : ℚ
deriving DecidableEq

/-- The offshore filter applied in the `__main__` block before appending to
`offshore_regions`:
`offshore_regions_c = offshore_regions_c.loc[offshore_regions_c.area > 1e-2]`
(present identically at both call sites, lines 162 and 200). -/
def filterOffshoreRows (rows : List RegionRow) : List RegionRow :=
  rows.filter fun r => (1 : ℚ) / 100 < r.area

/-- The two-point sample input used by concrete witnesses. -/
def ptsW : List Q2 := [((0 : ℚ), (0 : ℚ)), ((2 : ℚ), (2 : ℚ))]

/-- The regions a successful call computes on `ptsW` over the whole plane. -/
def polysW : List (Set R2) :=
  ptsW.map fun p => vorCell (combinedPts ptsW) p ∩ Set.univ

/-- A large square boundary, reaching far beyond the sample sites. -/
def sqOutline : Set R2 :=
  {x : R2 | -100 ≤ x.1 ∧ x.1 ≤ 100 ∧ -100 ≤ x.2 ∧ x.2 ≤ 100}

/-- Sample sites for the union counterexample. -/
def ptsU : List Q2 := [((0 : ℚ), (0 : ℚ)), ((1 : ℚ), (1 : ℚ))]

/-- The regions computed on `ptsU` over the large square. -/
def polysU : List (Set R2) :=
  ptsU.map fun p => vorCell (combinedPts ptsU) p ∩ sqOutline

/-- Inversion principle for a successful call: either the single-point
short-circuit fired, or there were at least two points, the combined sites
were not degenerate, and the result maps each point in order to its clipped
Voronoi cell. -/
theorem vpp_ok_cases {points : List Q2} {outline : Set R2}
    {polys : List (Set R2)}
    (h : voronoi_partition_pts points outline = .ok polys) :
    (points.length = 1 ∧ polys = [outline]) ∨
    (2 ≤ points.length ∧ collinearPts (combinedPts points) = false ∧
      polys = points.map fun p => vorCell (combinedPts points) p ∩ outline) := by
  unfold voronoi_partition_pts at h
  by_cases h1 : points.length = 1
  · left
    rw [if_pos h1] at h
    exact ⟨h1, (Except.ok.injEq _ _ ▸ h.symm : _)⟩
  · right
    rw [if_neg h1] at h
    by_cases h0 : points.isEmpty
    · rw [if_pos h0] at h
      exact absurd h (by simp)
    · rw [if_neg h0] at h
      by_cases hc : collinearPts (combinedPts points) = true
      · simp only [hc, if_true] at h
        exact absurd h (by simp)
      · have hc' : collinearPts (combinedPts points) = false :=
          Bool.eq_false_iff.mpr hc
        simp only [hc', if_false, Bool.false_eq_true] at h
        have hne : points ≠ [] := by
          intro hnil
          rw [hnil] at h0
          exact h0 rfl
        have hpos : 0 < points.length := List.length_pos.mpr hne
        have hlen : 2 ≤ points.length := by omega
        exact ⟨hlen, hc', by simpa using h.symm⟩

/-- Forward construction of a successful multi-point call, used to discharge
hypotheses at concrete inputs. -/
theorem vpp_ok_of (points : List Q2) (outline : Set R2)
    (h1 : points.length ≠ 1) (h0 : points ≠ [])
    (hc : collinearPts (combinedPts points) = false) :
    voronoi_partition_pts points outline =
      .ok (points.map fun p => vorCell (combinedPts points) p ∩ outline) := by
  unfold voronoi_partition_pts
  rw [if_neg h1, if_neg (by simpa using h0)]
  simp only [hc, Bool.false_eq_true, if_false]

/-- The combined sites of `ptsU`, concretely. -/
theorem combinedPts_ptsU :
    combinedPts ptsU =
      [((0 : ℚ), (0 : ℚ)), ((1 : ℚ), (1 : ℚ)), ((-3 : ℚ), (-3 : ℚ)),
       ((-3 : ℚ), (4 : ℚ)), ((4 : ℚ), (-3 : ℚ)), ((4 : ℚ), (4 : ℚ))] := by
  norm_num [combinedPts, ptsU, framePoints, aminX, aminY, amaxX, amaxY]

/-- The union-counterexample sites are not degenerate. -/
theorem ptsU_not_collinear : collinearPts (combinedPts ptsU) = false := by
  rw [combinedPts_ptsU]
  norm_num [collinearPts, collinearWith, cross3, List.all, Prod.ext_iff]

/-- The union-counterexample call succeeds. -/
theorem vppU_ok : voronoi_partition_pts ptsU sqOutline = .ok polysU :=
  vpp_ok_of ptsU sqOutline (by norm_num [ptsU]) (by simp [ptsU])
    ptsU_not_collinear

/-- C2: for every single point `p` and every boundary, the call returns the
one-element sequence holding the boundary unchanged; the single-point branch
returns before any frame construction or Voronoi computation, so the result
holds for every boundary, valid or not. -/
theorem single_point_returns_outline (p : Q2) (outline : Set R2) :
    voronoi_partition_pts [p] outline = .ok [outline] := rfl

/-- C7: calling the partitioner with zero points fails fast with the
invalid-input error raised by `np.amin` on a zero-size array, before the
frame points are built and before any Voronoi computation is attempted. -/
theorem empty_points_error (outline : Set R2) :
    voronoi_partition_pts [] outline = .error .emptyInput := rfl

/-- C3: every region polygon returned by a successful call is contained in
the boundary: in the multi-point branch each region is produced as
`poly.intersection(outline)`, and in the single-point branch the region is
the boundary itself. -/
theorem regions_subset_outline (points : List Q2) (outline : Set R2)
    (polys : List (Set R2))
    (h : voronoi_partition_pts points outline = .ok polys) :
    ∀ r ∈ polys, r ⊆ outline := by
  intro r hr
  rcases vpp_ok_cases h with ⟨_, hpolys⟩ | ⟨_, _, hpolys⟩
  · rw [hpolys] at hr
    rw [List.mem_singleton.mp hr]
  · rw [hpolys] at hr
    rcases List.mem_map.mp hr with ⟨p, _, hp⟩
    rw [← hp]
    exact Set.inter_subset_right

/-- Containment witness: a concrete successful two-point call over the large
square boundary whose regions are all inside that boundary. -/
theorem regions_subset_outline_witness :
    voronoi_partition_pts ptsU sqOutline = .ok polysU ∧
      ∀ r ∈ polysU, r ⊆ sqOutline :=
  ⟨vppU_ok, regions_subset_outline ptsU sqOutline polysU vppU_ok⟩

/-- C8 counterexample: a malformed (empty) boundary does not make the
partitioner raise an invalid-input error — with a single point the call
succeeds and hands the empty boundary back unchanged. -/
theorem malformed_outline_no_error :
    voronoi_partition_pts [((0 : ℚ), (0 : ℚ))] (∅ : Set R2) =
      .ok [(∅ : Set R2)] := rfl

/-- C8 (amended): the partitioner never validates or repairs the boundary
(only computed Voronoi cells get the `buffer(0)` repair); an empty boundary
raises no error — every region a successful call returns over it is empty,
the single-point branch returning the empty boundary unchanged and the
multi-point branch clipping every cell to the empty set. -/
theorem empty_outline_regions_empty (points : List Q2)
    (polys : List (Set R2))
    (h : voronoi_partition_pts points (∅ : Set R2) = .ok polys) :
    ∀ r ∈ polys, r = ∅ := by
  intro r hr
  rcases vpp_ok_cases h with ⟨_, hpolys⟩ | ⟨_, _, hpolys⟩
  · rw [hpolys] at hr
    exact List.mem_singleton.mp hr
  · rw [hpolys] at hr
    rcases List.mem_map.mp hr with ⟨p, _, hp⟩
    rw [← hp]
    exact Set.inter_empty _

/-- Empty-boundary witness: the concrete single-point call over the empty
boundary succeeds and returns only empty regions. -/
theorem empty_outline_regions_empty_witness :
    voronoi_partition_pts [((0 : ℚ), (0 : ℚ))] (∅ : Set R2) =
        .ok [(∅ : Set R2)] ∧
      ∀ r ∈ ([(∅ : Set R2)] : List (Set R2)), r = ∅ :=
  ⟨rfl, empty_outline_regions_empty [((0 : ℚ), (0 : ℚ))] [(∅ : Set R2)] rfl⟩

/-- Folding a function that fixes `b` over a constant list leaves the
accumulator unchanged. -/
theorem foldl_const_of_all_eq {α β : Type} (f : β → α → β) (c : α) (b : β)
    (hb : f b c = b) :
    ∀ (t : List α), (∀ q ∈ t, q = c) → t.foldl f b = b := by
  intro t
  induction t with
  | nil => intro _; rfl
  | cons a t ih =>
    intro hall
    have ha : a = c := hall a (List.mem_cons_self a t)
    have ht : ∀ q ∈ t, q = c := fun q hq => hall q (List.mem_cons_of_mem a hq)
    simp only [List.foldl_cons, ha, hb]
    exact ih ht

/-- If every point of the list coincides with `a`, the collinearity scan
accepts it. -/
theorem collinearWith_all_eq (a : Q2) :
    ∀ (t : List Q2), (∀ q ∈ t, q = a) → collinearWith a t = true := by
  intro t
  induction t with
  | nil => intro _; rfl
  | cons b t ih =>
    intro hall
    have hb : b = a := hall b (List.mem_cons_self b t)
    have ht : ∀ q ∈ t, q = a := fun q hq => hall q (List.mem_cons_of_mem b hq)
    simp only [collinearWith, hb, if_true]
    exact ih ht

/-- On a point list whose elements all coincide with its head, the four frame
corners all equal that head (both spans are zero) and the combined site list
is degenerate. -/
theorem framePoints_all_eq (points : List Q2) (hne : points ≠ [])
    (hall : ∀ p ∈ points, p = points.getD 0 ((0 : ℚ), (0 : ℚ))) :
    framePoints points =
      [points.getD 0 ((0 : ℚ), (0 : ℚ)), points.getD 0 ((0 : ℚ), (0 : ℚ)),
       points.getD 0 ((0 : ℚ), (0 : ℚ)), points.getD 0 ((0 : ℚ), (0 : ℚ))] := by
  rcases points with _ | ⟨p, t⟩
  · exact absurd rfl hne
  · have hd : (p :: t).getD 0 ((0 : ℚ), (0 : ℚ)) = p := rfl
    rw [hd] at hall ⊢
    have ht : ∀ q ∈ t, q = p := fun q hq => hall q (List.mem_cons_of_mem p hq)
    have hx : aminX (p :: t) = p.1 :=
      foldl_const_of_all_eq _ p p.1 (min_self p.1) t ht
    have hy : aminY (p :: t) = p.2 :=
      foldl_const_of_all_eq _ p p.2 (min_self p.2) t ht
    have hX : amaxX (p :: t) = p.1 :=
      foldl_const_of_all_eq _ p p.1 (max_self p.1) t ht
    have hY : amaxY (p :: t) = p.2 :=
      foldl_const_of_all_eq _ p p.2 (max_self p.2) t ht
    simp only [framePoints, hx, hy, hX, hY]
    norm_num

/-- C10: with two or more pairwise-identical points both coordinate spans are
zero, so the four appended frame corners coincide with the data points, the
combined site set handed to `scipy.spatial.Voronoi` is degenerate, and the
call raises (`QhullError`) instead of returning one region per point. -/
theorem identical_points_qhull_error (points : List Q2) (outline : Set R2)
    (h2 : 2 ≤ points.length)
    (hall : ∀ p ∈ points, p = points.getD 0 ((0 : ℚ), (0 : ℚ))) :
    framePoints points =
        [points.getD 0 ((0 : ℚ), (0 : ℚ)), points.getD 0 ((0 : ℚ), (0 : ℚ)),
         points.getD 0 ((0 : ℚ), (0 : ℚ)), points.getD 0 ((0 : ℚ), (0 : ℚ))] ∧
      voronoi_partition_pts points outline = .error .qhullError := by
  have hne : points ≠ [] := by
    intro hnil
    rw [hnil] at h2
    exact absurd h2 (by norm_num)
  refine ⟨framePoints_all_eq points hne hall, ?_⟩
  rcases points with _ | ⟨p, t⟩
  · exact absurd rfl hne
  · have hd : (p :: t).getD 0 ((0 : ℚ), (0 : ℚ)) = p := rfl
    rw [hd] at hall
    have ht : ∀ q ∈ t, q = p := fun q hq => hall q (List.mem_cons_of_mem p hq)
    have hcomb : combinedPts (p :: t) = p :: (t ++ framePoints (p :: t)) := rfl
    have hframe : framePoints (p :: t) = [p, p, p, p] := by
      have := framePoints_all_eq (p :: t) hne (hd ▸ hall)
      rwa [hd] at this
    have hcol : collinearPts (combinedPts (p :: t)) = true := by
      rw [hcomb]
      show collinearWith p (t ++ framePoints (p :: t)) = true
      refine collinearWith_all_eq p _ ?_
      intro q hq
      rcases List.mem_append.mp hq with hq | hq
      · exact ht q hq
      · rw [hframe] at hq
        simpa using hq
    have hlen : (p :: t).length ≠ 1 := by
      intro hl
      rw [hl] at h2
      exact absurd h2 (by norm_num)
    unfold voronoi_partition_pts
    rw [if_neg hlen, if_neg (by simp : ¬(p :: t).isEmpty = true)]
    simp only [hcol, if_true]

/-- C10 witness: the concrete two-copy input `[(0,0),(0,0)]` has coincident
frame corners and raises the qhull error. -/
theorem identical_points_qhull_error_witness :
    2 ≤ ([((0 : ℚ), (0 : ℚ)), ((0 : ℚ), (0 : ℚ))] : List Q2).length ∧
      framePoints [((0 : ℚ), (0 : ℚ)), ((0 : ℚ), (0 : ℚ))] =
        [((0 : ℚ), (0 : ℚ)), ((0 : ℚ), (0 : ℚ)), ((0 : ℚ), (0 : ℚ)),
         ((0 : ℚ), (0 : ℚ))] ∧
      voronoi_partition_pts [((0 : ℚ), (0 : ℚ)), ((0 : ℚ), (0 : ℚ))] Set.univ =
        .error .qhullError := by
  have h := identical_points_qhull_error
    [((0 : ℚ), (0 : ℚ)), ((0 : ℚ), (0 : ℚ))] Set.univ (by norm_num)
    (by
      intro p hp
      rcases List.mem_cons.mp hp with h | hp
      · simpa using h
      · simpa using List.mem_singleton.mp hp)
  exact ⟨by norm_num, h.1, h.2⟩

/-- Evaluates `getD` through a `map`, inside the index range. -/
theorem getD_map_eq (f : Q2 → Set R2) (l : List Q2) :
    ∀ (i : ℕ), i < l.length →
      (l.map f).getD i ∅ = f (l.getD i ((0 : ℚ), (0 : ℚ))) := by
  induction l with
  | nil => intro i hi; exact absurd hi (by simp)
  | cons a t ih =>
    intro i hi
    cases i with
    | zero => rfl
    | succ i =>
      have hi' : i < t.length := by simpa using hi
      simpa [List.getD_cons_succ] using ih i hi'

/-- An in-range `getD` is a member of the list. -/
theorem getD_mem_of_lt (l : List Q2) (i : ℕ) (hi : i < l.length) :
    l.getD i ((0 : ℚ), (0 : ℚ)) ∈ l := by
  rw [List.getD_eq_getElem l _ hi]
  exact List.getElem_mem hi

/-- C1 counterexample: on the non-empty input `[(0,0),(0,0)]` (two points,
both coordinate spans zero) the call raises the qhull error instead of
returning a two-element sequence. -/
theorem length_claim_cex :
    voronoi_partition_pts [((0 : ℚ), (0 : ℚ)), ((0 : ℚ), (0 : ℚ))] Set.univ =
      .error .qhullError := by
  unfold voronoi_partition_pts
  rw [if_neg (by norm_num), if_neg (by simp)]
  have hcol :
      collinearPts (combinedPts [((0 : ℚ), (0 : ℚ)), ((0 : ℚ), (0 : ℚ))]) =
        true := by
    norm_num [collinearPts, collinearWith, combinedPts, framePoints, aminX,
      aminY, amaxX, amaxY, cross3, List.all]
  simp only [hcol, if_true]

/-- C1 (amended): whenever the call returns (rather than raising), the output
sequence has exactly one region per input point, and the i-th region is the
one derived from the i-th point — the boundary itself in the single-point
branch, and otherwise the Voronoi cell of the i-th point clipped to the
boundary. -/
theorem vpp_length_and_order (points : List Q2) (outline : Set R2)
    (polys : List (Set R2))
    (h : voronoi_partition_pts points outline = .ok polys) :
    polys.length = points.length ∧
      ∀ i, i < points.length →
        polys.getD i ∅ =
          if points.length = 1 then outline
          else
            vorCell (combinedPts points) (points.getD i ((0 : ℚ), (0 : ℚ))) ∩
              outline := by
  rcases vpp_ok_cases h with ⟨h1, hpolys⟩ | ⟨hlen, _, hpolys⟩
  · subst hpolys
    refine ⟨by simp [h1], ?_⟩
    intro i hi
    rw [h1] at hi
    have hi0 : i = 0 := by omega
    subst hi0
    rw [if_pos h1]
    rfl
  · subst hpolys
    refine ⟨by simp, ?_⟩
    intro i hi
    rw [if_neg (by omega)]
    exact getD_map_eq _ points i hi

/-- The sample sites are not degenerate: the frame corner `(-6, 8)` is off
the line through `(0,0)` and `(2,2)`. -/
theorem ptsW_not_collinear : collinearPts (combinedPts ptsW) = false := by
  norm_num [ptsW, collinearPts, collinearWith, combinedPts, framePoints,
    aminX, aminY, amaxX, amaxY, cross3, List.all, Prod.ext_iff]

/-- The sample call succeeds and returns the clipped cells in input order. -/
theorem vppW_ok : voronoi_partition_pts ptsW Set.univ = .ok polysW :=
  vpp_ok_of ptsW Set.univ (by norm_num [ptsW]) (by simp [ptsW])
    ptsW_not_collinear

/-- Length/order witness: the concrete two-point call returns two regions,
the i-th clipped from the cell of the i-th point. -/
theorem vpp_length_and_order_witness :
    voronoi_partition_pts ptsW Set.univ = .ok polysW ∧
      polysW.length = ptsW.length ∧
      ∀ i, i < ptsW.length →
        polysW.getD i ∅ =
          if ptsW.length = 1 then Set.univ
          else
            vorCell (combinedPts ptsW) (ptsW.getD i ((0 : ℚ), (0 : ℚ))) ∩
              Set.univ :=
  ⟨vppW_ok, vpp_length_and_order ptsW Set.univ polysW vppW_ok⟩

/-- C5: on a successful multi-point call, every location inside the i-th
returned region is at least as close to the i-th point as to the j-th point —
the defining Voronoi property; since the region is clipped to the boundary,
the statement is automatically restricted to it. -/
theorem region_nearest_site (points : List Q2) (outline : Set R2)
    (polys : List (Set R2))
    (h : voronoi_partition_pts points outline = .ok polys)
    (hlen : 2 ≤ points.length) (i j : ℕ)
    (hi : i < points.length) (hj : j < points.length) (x : R2)
    (hx : x ∈ polys.getD i ∅) :
    sqdist x (toR2 (points.getD i ((0 : ℚ), (0 : ℚ)))) ≤
      sqdist x (toR2 (points.getD j ((0 : ℚ), (0 : ℚ)))) := by
  rcases vpp_ok_cases h with ⟨h1, _⟩ | ⟨_, _, hpolys⟩
  · omega
  · subst hpolys
    rw [getD_map_eq _ points i hi] at hx
    have hxcell : x ∈ vorCell (combinedPts points)
        (points.getD i ((0 : ℚ), (0 : ℚ))) := hx.1
    have hjmem : points.getD j ((0 : ℚ), (0 : ℚ)) ∈ combinedPts points :=
      List.mem_append_left _ (getD_mem_of_lt points j hj)
    exact hxcell _ hjmem

/-- The origin lies in the first region the sample call computes. -/
theorem originW_mem : ((0 : ℝ), (0 : ℝ)) ∈ polysW.getD 0 ∅ := by
  refine Set.mem_inter ?_ (Set.mem_univ _)
  intro q hq
  have h1 : sqdist ((0 : ℝ), (0 : ℝ)) (toR2 ((0 : ℚ), (0 : ℚ))) = 0 := by
    norm_num [sqdist, toR2]
  rw [h1]
  simp only [sqdist]
  positivity

/-- Nearest-site witness: on the concrete two-point call, the location
`(0,0)` lies in the first region and is no farther from the first point than
from the second. -/
theorem region_nearest_site_witness :
    voronoi_partition_pts ptsW Set.univ = .ok polysW ∧
      2 ≤ ptsW.length ∧
      ((0 : ℝ), (0 : ℝ)) ∈ polysW.getD 0 ∅ ∧
      sqdist ((0 : ℝ), (0 : ℝ)) (toR2 (ptsW.getD 0 ((0 : ℚ), (0 : ℚ)))) ≤
        sqdist ((0 : ℝ), (0 : ℝ)) (toR2 (ptsW.getD 1 ((0 : ℚ), (0 : ℚ)))) :=
  ⟨vppW_ok, by norm_num [ptsW], originW_mem,
    region_nearest_site ptsW Set.univ polysW vppW_ok (by norm_num [ptsW]) 0 1
      (by norm_num [ptsW]) (by norm_num [ptsW]) ((0 : ℝ), (0 : ℝ)) originW_mem⟩

/-- C6 counterexample: over the large square boundary, the two-point call
succeeds but the location `(0, 100)` of the boundary lies in neither returned
region (it is strictly closer to the appended frame corner `(-3, 4)` than to
either real point), so the union of the returned regions is not the
boundary — and the omission is a full chunk of the square, not an
arbitrarily small intersection error. -/
theorem union_claim_cex :
    voronoi_partition_pts ptsU sqOutline = .ok polysU ∧
      polysU.length = 2 ∧
      ((0 : ℝ), (100 : ℝ)) ∈ sqOutline ∧
      ((0 : ℝ), (100 : ℝ)) ∉ polysU.getD 0 ∅ ∧
      ((0 : ℝ), (100 : ℝ)) ∉ polysU.getD 1 ∅ ∧
      polysU.getD 0 ∅ ∪ polysU.getD 1 ∅ ≠ sqOutline := by
  have hframe : ((-3 : ℚ), (4 : ℚ)) ∈ combinedPts ptsU := by
    rw [combinedPts_ptsU]
    simp
  have h0 : ((0 : ℝ), (100 : ℝ)) ∉ polysU.getD 0 ∅ := by
    intro hmem
    have hcell : ((0 : ℝ), (100 : ℝ)) ∈
        vorCell (combinedPts ptsU) ((0 : ℚ), (0 : ℚ)) := hmem.1
    have := hcell _ hframe
    norm_num [sqdist, toR2] at this
  have h1 : ((0 : ℝ), (100 : ℝ)) ∉ polysU.getD 1 ∅ := by
    intro hmem
    have hcell : ((0 : ℝ), (100 : ℝ)) ∈
        vorCell (combinedPts ptsU) ((1 : ℚ), (1 : ℚ)) := hmem.1
    have := hcell _ hframe
    norm_num [sqdist, toR2] at this
  have hsq : ((0 : ℝ), (100 : ℝ)) ∈ sqOutline := by
    norm_num [sqOutline]
  refine ⟨vppU_ok, by norm_num [polysU, ptsU], hsq, h0, h1, ?_⟩
  intro heq
  have : ((0 : ℝ), (100 : ℝ)) ∈ polysU.getD 0 ∅ ∪ polysU.getD 1 ∅ := by
    rw [heq]
    exact hsq
  rcases this with hmem | hmem
  · exact h0 hmem
  · exact h1 hmem

/-- C6 (amended): whenever a call succeeds and the boundary is covered by the
union of the Voronoi cells of the real points (as holds when the boundary
does not reach the cells of the frame corners — e.g. a boundary within the data bounding
box), the union of the returned regions equals the boundary exactly; in
general the union is the part of the boundary covered by the real cells. -/
theorem union_regions_eq_outline (points : List Q2) (outline : Set R2)
    (polys : List (Set R2))
    (h : voronoi_partition_pts points outline = .ok polys)
    (hcov : outline ⊆ ⋃ p ∈ points, vorCell (combinedPts points) p) :
    (⋃ r ∈ polys, r) = outline := by
  rcases vpp_ok_cases h with ⟨_, hpolys⟩ | ⟨_, _, hpolys⟩
  · subst hpolys
    simp
  · subst hpolys
    apply Set.Subset.antisymm
    · refine Set.iUnion₂_subset ?_
      intro r hr
      rcases List.mem_map.mp hr with ⟨p, _, hp⟩
      rw [← hp]
      exact Set.inter_subset_right
    · intro x hx
      rcases Set.mem_iUnion₂.mp (hcov hx) with ⟨p, hp, hxp⟩
      refine Set.mem_iUnion₂.mpr ?_
      exact ⟨vorCell (combinedPts points) p ∩ outline,
        List.mem_map.mpr ⟨p, hp, rfl⟩, hxp, hx⟩

/-- Union witness: a concrete single-point call whose boundary (the whole
plane) is covered by the cell of the sole site, with the union of the returned
regions equal to the boundary. -/
theorem union_regions_eq_outline_witness :
    voronoi_partition_pts [((0 : ℚ), (0 : ℚ))] Set.univ =
        .ok [(Set.univ : Set R2)] ∧
      (Set.univ : Set R2) ⊆
        ⋃ p ∈ [((0 : ℚ), (0 : ℚ))],
          vorCell (combinedPts [((0 : ℚ), (0 : ℚ))]) p ∧
      (⋃ r ∈ ([(Set.univ : Set R2)] : List (Set R2)), r) = Set.univ := by
  have hcov : (Set.univ : Set R2) ⊆
      ⋃ p ∈ [((0 : ℚ), (0 : ℚ))],
        vorCell (combinedPts [((0 : ℚ), (0 : ℚ))]) p := by
    intro x _
    refine Set.mem_iUnion₂.mpr ⟨((0 : ℚ), (0 : ℚ)), by simp, ?_⟩
    intro q hq
    have hcomb : combinedPts [((0 : ℚ), (0 : ℚ))] =
        [((0 : ℚ), (0 : ℚ)), ((0 : ℚ), (0 : ℚ)), ((0 : ℚ), (0 : ℚ)),
         ((0 : ℚ), (0 : ℚ)), ((0 : ℚ), (0 : ℚ))] := by
      norm_num [combinedPts, framePoints, aminX, aminY, amaxX, amaxY]
    rw [hcomb] at hq
    have hq0 : q = ((0 : ℚ), (0 : ℚ)) := by simpa using hq
    rw [hq0]
  exact ⟨rfl, hcov,
    union_regions_eq_outline [((0 : ℚ), (0 : ℚ))] Set.univ
      [(Set.univ : Set R2)] rfl hcov⟩

open MeasureTheory in
/-- A line of the plane (a nontrivial linear equation) has zero area. -/
theorem volume_line_eq_zero (a b c : ℝ) (hab : ¬(a = 0 ∧ b = 0)) :
    volume {p : ℝ × ℝ | a * p.1 + b * p.2 = c} = 0 := by
  have hms : MeasurableSet {p : ℝ × ℝ | a * p.1 + b * p.2 = c} := by
    have hcl : IsClosed {p : ℝ × ℝ | a * p.1 + b * p.2 = c} := by
      apply isClosed_eq _ continuous_const
      fun_prop
    exact hcl.measurableSet
  rw [Measure.volume_eq_prod, Measure.measure_prod_null hms]
  by_cases hb : b = 0
  · have ha : a ≠ 0 := fun h => hab ⟨h, hb⟩
    subst hb
    rw [Filter.EventuallyEq, ae_iff]
    apply measure_mono_null (t := {c / a})
    · intro x hx
      simp only [Set.mem_setOf_eq, Pi.zero_apply] at hx
      by_contra hxc
      apply hx
      have hslice : Set.preimage (Prod.mk x) {p : ℝ × ℝ | a * p.1 + 0 * p.2 = c} =
          (∅ : Set ℝ) := by
        ext y
        simp only [Set.mem_preimage, Set.mem_setOf_eq, Set.mem_empty_iff_false,
          iff_false, mul_zero, add_zero]
        intro h
        apply hxc
        rw [Set.mem_singleton_iff]
        field_simp
        linarith
      rw [hslice]
      simp
    · exact Real.volume_singleton
  · refine Filter.Eventually.of_forall ?_
    intro x
    have hslice : Set.preimage (Prod.mk x) {p : ℝ × ℝ | a * p.1 + b * p.2 = c} =
        {(c - a * x) / b} := by
      ext y
      simp only [Set.mem_preimage, Set.mem_setOf_eq, Set.mem_singleton_iff]
      rw [eq_div_iff hb]
      constructor
      · intro h; linarith
      · intro h; linarith
    simp only [hslice, Pi.zero_apply]
    exact Real.volume_singleton

open MeasureTheory in
/-- The perpendicular bisector of two distinct sites has zero area. -/
theorem bisector_zero_area (p q : Q2) (hpq : p ≠ q) :
    volume {x : R2 | sqdist x (toR2 p) = sqdist x (toR2 q)} = 0 := by
  have key : {x : R2 | sqdist x (toR2 p) = sqdist x (toR2 q)} ⊆
      {x : ℝ × ℝ | (2 * ((q.1 : ℝ) - (p.1 : ℝ))) * x.1 +
        (2 * ((q.2 : ℝ) - (p.2 : ℝ))) * x.2 =
        (q.1 : ℝ) ^ 2 + (q.2 : ℝ) ^ 2 - (p.1 : ℝ) ^ 2 - (p.2 : ℝ) ^ 2} := by
    intro x hx
    simp only [Set.mem_setOf_eq, sqdist, toR2] at hx ⊢
    nlinarith [hx]
  apply measure_mono_null key
  apply volume_line_eq_zero
  rintro ⟨ha, hb⟩
  apply hpq
  have h1 : (p.1 : ℝ) = (q.1 : ℝ) := by linarith
  have h2 : (p.2 : ℝ) = (q.2 : ℝ) := by linarith
  have h1' : p.1 = q.1 := by exact_mod_cast h1
  have h2' : p.2 = q.2 := by exact_mod_cast h2
  exact Prod.ext h1' h2'

open MeasureTheory in
/-- C4: any two distinct region polygons returned by a successful call meet
in a zero-area set: distinct regions come from distinct sites (equal sites
yield the very same region), and both regions lie inside the shared Voronoi
bisector of the two sites wherever they meet. -/
theorem regions_zero_overlap (points : List Q2) (outline : Set R2)
    (polys : List (Set R2))
    (h : voronoi_partition_pts points outline = .ok polys) (i j : ℕ)
    (hne : polys.getD i ∅ ≠ polys.getD j ∅) :
    volume (polys.getD i ∅ ∩ polys.getD j ∅) = 0 := by
  rcases vpp_ok_cases h with ⟨h1, hpolys⟩ | ⟨hlen, _, hpolys⟩
  · subst hpolys
    by_cases hi : i < ([outline] : List (Set R2)).length
    · by_cases hj : j < ([outline] : List (Set R2)).length
      · have hi0 : i = 0 := by simpa using hi
        have hj0 : j = 0 := by simpa using hj
        rw [hi0, hj0] at hne
        exact absurd rfl hne
      · have hj' : ([outline] : List (Set R2)).getD j ∅ = ∅ :=
          List.getD_eq_default _ _ (Nat.not_lt.mp hj)
        rw [hj', Set.inter_empty]
        exact measure_empty
    · have hi' : ([outline] : List (Set R2)).getD i ∅ = ∅ :=
        List.getD_eq_default _ _ (Nat.not_lt.mp hi)
      rw [hi', Set.empty_inter]
      exact measure_empty
  · subst hpolys
    by_cases hi : i < points.length
    · by_cases hj : j < points.length
      · rw [getD_map_eq _ points i hi, getD_map_eq _ points j hj] at hne ⊢
        set pi := points.getD i ((0 : ℚ), (0 : ℚ)) with hpi
        set pj := points.getD j ((0 : ℚ), (0 : ℚ)) with hpj
        have hpij : pi ≠ pj := by
          intro hpq
          rw [hpq] at hne
          exact absurd rfl hne
        apply measure_mono_null (t :=
          {x : R2 | sqdist x (toR2 pi) = sqdist x (toR2 pj)})
        · intro x hx
          have hxi : x ∈ vorCell (combinedPts points) pi := hx.1.1
          have hxj : x ∈ vorCell (combinedPts points) pj := hx.2.1
          have hmi : pi ∈ combinedPts points :=
            List.mem_append_left _ (getD_mem_of_lt points i hi)
          have hmj : pj ∈ combinedPts points :=
            List.mem_append_left _ (getD_mem_of_lt points j hj)
          exact le_antisymm (hxi _ hmj) (hxj _ hmi)
        · exact bisector_zero_area pi pj hpij
      · have hj' : (points.map fun p =>
            vorCell (combinedPts points) p ∩ outline).getD j ∅ = ∅ :=
          List.getD_eq_default _ _ (by simpa using hj)
        rw [hj', Set.inter_empty]
        exact measure_empty
    · have hi' : (points.map fun p =>
          vorCell (combinedPts points) p ∩ outline).getD i ∅ = ∅ :=
        List.getD_eq_default _ _ (by simpa using hi)
      rw [hi', Set.empty_inter]
      exact measure_empty

/-- The combined sites of the sample input `ptsW`, concretely. -/
theorem combinedPts_ptsW_eq :
    combinedPts ptsW =
      [((0 : ℚ), (0 : ℚ)), ((2 : ℚ), (2 : ℚ)), ((-6 : ℚ), (-6 : ℚ)),
       ((-6 : ℚ), (8 : ℚ)), ((8 : ℚ), (-6 : ℚ)), ((8 : ℚ), (8 : ℚ))] := by
  norm_num [combinedPts, ptsW, framePoints, aminX, aminY, amaxX, amaxY]

/-- The two regions of the sample call differ: the origin lies in the first
but not in the second. -/
theorem polysW_distinct : polysW.getD 0 ∅ ≠ polysW.getD 1 ∅ := by
  intro heq
  have h1 : ((0 : ℝ), (0 : ℝ)) ∈ polysW.getD 1 ∅ := heq ▸ originW_mem
  have hcell : ((0 : ℝ), (0 : ℝ)) ∈
      vorCell (combinedPts ptsW) ((2 : ℚ), (2 : ℚ)) := h1.1
  have hmem0 : ((0 : ℚ), (0 : ℚ)) ∈ combinedPts ptsW := by
    rw [combinedPts_ptsW_eq]
    simp
  have := hcell _ hmem0
  norm_num [sqdist, toR2] at this

open MeasureTheory in
/-- Non-overlap witness: the two distinct regions of the concrete two-point
call intersect in a zero-area set. -/
theorem regions_zero_overlap_witness :
    voronoi_partition_pts ptsW Set.univ = .ok polysW ∧
      polysW.getD 0 ∅ ≠ polysW.getD 1 ∅ ∧
      volume (polysW.getD 0 ∅ ∩ polysW.getD 1 ∅) = 0 :=
  ⟨vppW_ok, polysW_distinct,
    regions_zero_overlap ptsW Set.univ polysW vppW_ok 0 1 polysW_distinct⟩

/-- C9: the offshore filter of the `__main__` block keeps exactly the rows
whose computed area is strictly greater than `1e-2` (= 1/100), preserving
their relative order, before the table is appended to `offshore_regions`;
the same line appears at both offshore call sites (country and state
passes). -/
theorem offshore_filter_mem (rows : List RegionRow) (r : RegionRow) :
    r ∈ filterOffshoreRows rows ↔ r ∈ rows ∧ (1 : ℚ) / 100 < r.area := by
  simp [filterOffshoreRows, List.mem_filter]

end BuildBusRegions
